import Mathlib

/-!
# moxecutable: a verification development for `moxy.go`

A shallow embedding of the Go program `moxy.go` (the FIFO shim) and of the
parts of the Go standard library it relies on (`strings.Fields`,
`strconv.Atoi`, `strconv.Itoa`, `filepath.Join`, `io.Copy`), followed by the
theorems that settle the claims C1 .. C10 of the specification.

Conventions of the embedding

* A Go `string` / `[]byte` is a list of bytes, `GoString := List Nat`, every
  element standing for a byte value `0 .. 255`.
* Go's `int` is the 64-bit one; values are carried in `Int`.
* The operating system is an explicit input: results of system calls are
  supplied by oracle functions, and what a `Read` on a pipe returns is
  supplied as a list of read results (one per call, in call order).
* A run-time panic of the Go program is an explicit outcome.
-/

namespace Moxy

/-! ## Go strings -/

/-- A Go string: its bytes, in order. -/
abbrev GoString := List Nat

/-- The bytes of an ASCII literal (every literal used below is ASCII, so the
character codes are exactly the bytes of the Go string literal). -/
def ascii (s : String) : GoString := s.data.map Char.toNat

/-! ## `strings.Fields` -/

/-- The table `asciiSpace` of package `strings`: tab, LF, VT, FF, CR, space. -/
def asciiSpace (b : Nat) : Bool :=
  b == 9 || b == 10 || b == 11 || b == 12 || b == 13 || b == 32

/-- The ASCII fast path of `strings.Fields`: leading white space is skipped,
a field runs up to the next white-space byte, `cur` is the field being read
(`none` between fields). -/
def fieldsASCII : GoString → Option GoString → List GoString
  | [], none => []
  | [], some cur => [cur]
  | b :: rest, none =>
      if asciiSpace b then fieldsASCII rest none else fieldsASCII rest (some [b])
  | b :: rest, some cur =>
      if asciiSpace b then cur :: fieldsASCII rest none
      else fieldsASCII rest (some (cur ++ [b]))

/-- The value `utf8.RuneError`. -/
def runeError : Nat := 0xFFFD

/-- A UTF-8 continuation byte, `0x80 .. 0xBF`. -/
def isCont (b : Nat) : Bool := 0x80 ≤ b && b ≤ 0xBF

/-- Decoding of the first rune of a non-empty string, as `for range` over a
string does it: the rune and the number of bytes it occupies. An invalid or
truncated encoding yields `(RuneError, 1)`. -/
def decodeRune : GoString → Nat × Nat
  | [] => (runeError, 0)
  | s0 :: t =>
    if s0 < 0x80 then (s0, 1)
    else if 0xC2 ≤ s0 ∧ s0 ≤ 0xDF then
      match t with
      | s1 :: _ => if isCont s1 then ((s0 % 32) * 64 + s1 % 64, 2) else (runeError, 1)
      | [] => (runeError, 1)
    else if 0xE0 ≤ s0 ∧ s0 ≤ 0xEF then
      match t with
      | s1 :: s2 :: _ =>
        let lo := if s0 = 0xE0 then 0xA0 else 0x80
        let hi := if s0 = 0xED then 0x9F else 0xBF
        if lo ≤ s1 ∧ s1 ≤ hi ∧ isCont s2 then
          ((s0 % 16) * 4096 + (s1 % 64) * 64 + s2 % 64, 3)
        else (runeError, 1)
      | _ => (runeError, 1)
    else if 0xF0 ≤ s0 ∧ s0 ≤ 0xF4 then
      match t with
      | s1 :: s2 :: s3 :: _ =>
        let lo := if s0 = 0xF0 then 0x90 else 0x80
        let hi := if s0 = 0xF4 then 0x8F else 0xBF
        if lo ≤ s1 ∧ s1 ≤ hi ∧ isCont s2 ∧ isCont s3 then
          ((s0 % 8) * 262144 + (s1 % 64) * 4096 + (s2 % 64) * 64 + s3 % 64, 4)
        else (runeError, 1)
      | _ => (runeError, 1)
    else (runeError, 1)

/-- The runes of a string with the bytes each one occupies, as the loop
`for end, rune := range s` visits them. The first argument bounds the number
of iterations; `s.length` always suffices since each rune takes a byte. -/
def runesAux : Nat → GoString → List (Nat × GoString)
  | 0, _ => []
  | _ + 1, [] => []
  | n + 1, b :: rest =>
    let d := decodeRune (b :: rest)
    (d.1, (b :: rest).take d.2) :: runesAux n ((b :: rest).drop d.2)

/-- The runes of a string, each with its bytes. -/
def runes (s : GoString) : List (Nat × GoString) := runesAux s.length s

/-- The predicate `unicode.IsSpace`: the Latin-1 spaces and the code points of
the Unicode White_Space property. -/
def unicodeIsSpace (r : Nat) : Bool :=
  if r ≤ 0xFF then
    r == 9 || r == 10 || r == 11 || r == 12 || r == 13 || r == 32 || r == 0x85 || r == 0xA0
  else
    r == 0x1680 || (0x2000 ≤ r && r ≤ 0x200A) || r == 0x2028 || r == 0x2029 ||
      r == 0x202F || r == 0x205F || r == 0x3000

/-- The function `strings.FieldsFunc` over the decoded runes: a field is a
maximal run of runes on which `f` is false. -/
def fieldsFuncAux (f : Nat → Bool) : List (Nat × GoString) → Option GoString → List GoString
  | [], none => []
  | [], some cur => [cur]
  | (r, bs) :: rest, none =>
      if f r then fieldsFuncAux f rest none else fieldsFuncAux f rest (some bs)
  | (r, bs) :: rest, some cur =>
      if f r then cur :: fieldsFuncAux f rest none
      else fieldsFuncAux f rest (some (cur ++ bs))

/-- The function `strings.FieldsFunc`. -/
def fieldsFunc (f : Nat → Bool) (s : GoString) : List GoString :=
  fieldsFuncAux f (runes s) none

/-- The function `strings.Fields`: the ASCII fast path when every byte is below
`utf8.RuneSelf`, otherwise `FieldsFunc(s, unicode.IsSpace)`. -/
def fields (s : GoString) : List GoString :=
  if s.all (fun b => b < 0x80) then fieldsASCII s none
  else fieldsFunc unicodeIsSpace s

/-! ## `strconv.Atoi` -/

/-- The two error kinds of package `strconv`. -/
inductive NumError where
  | errSyntaxKind
  | errRangeKind
  deriving DecidableEq, Repr

/-- The digit loop of the fast path of `Atoi`: `ch -= '0'` wraps around in a
byte, a result above 9 is a syntax error. `none` stands for the error. -/
def atoiDigits : GoString → Nat → Option Nat
  | [], n => some n
  | ch :: rest, n =>
    let d := (ch + 256 - 48) % 256
    if d > 9 then none else atoiDigits rest (n * 10 + d)

/-- The largest `uint64`. -/
def maxUint64 : Nat := 2 ^ 64 - 1

/-- The loop of `strconv.ParseUint(s, 10, 64)`. -/
def parseUintLoop : GoString → Nat → Nat × Option NumError
  | [], n => (n, none)
  | c :: rest, n =>
    if 48 ≤ c ∧ c ≤ 57 then
      if n ≥ maxUint64 / 10 + 1 then (maxUint64, some .errRangeKind)
      else if n * 10 + (c - 48) > maxUint64 then (maxUint64, some .errRangeKind)
      else parseUintLoop rest (n * 10 + (c - 48))
    else (0, some .errSyntaxKind)

/-- The function `strconv.ParseUint(s, 10, 64)`. -/
def parseUint (s : GoString) : Nat × Option NumError :=
  if s = [] then (0, some .errSyntaxKind) else parseUintLoop s 0

/-- The function `strconv.ParseInt(s, 10, 0)` with 64-bit `int`. -/
def parseInt (s : GoString) : Int × Option NumError :=
  match s with
  | [] => (0, some .errSyntaxKind)
  | c :: rest =>
    let neg := c == 45
    let body := if c == 43 || c == 45 then rest else c :: rest
    match parseUint body with
    | (_, some .errSyntaxKind) => (0, some .errSyntaxKind)
    | (un, _) =>
      if !neg && un ≥ 2 ^ 63 then (2 ^ 63 - 1, some .errRangeKind)
      else if neg && un > 2 ^ 63 then (-(2 ^ 63), some .errRangeKind)
      else (if neg then -(un : Int) else (un : Int), none)

/-- The function `strconv.Atoi` (64-bit `int`): the fast path for strings of 1 to
18 bytes, `ParseInt` otherwise. -/
def atoi (s : GoString) : Int × Option NumError :=
  match s with
  | [] => parseInt s
  | c :: rest =>
    if s.length < 19 then
      let signed := c == 45 || c == 43
      let body := if signed then rest else s
      if signed && body.length < 1 then (0, some .errSyntaxKind)
      else
        match atoiDigits body 0 with
        | none => (0, some .errSyntaxKind)
        | some n => (if c == 45 then -(n : Int) else (n : Int), none)
    else parseInt s

/-! ## `strconv.Itoa` -/

/-- The digit loop of `strconv.Itoa`: the least significant digit of `n` is put
in front of `acc` and `n` is divided by ten, until one digit is left. The
first argument bounds the number of iterations. -/
def natDigitsAux : Nat → Nat → GoString → GoString
  | 0, _, acc => acc
  | fuel + 1, n, acc =>
    if n < 10 then (n + 48) :: acc
    else natDigitsAux fuel (n / 10) ((n % 10 + 48) :: acc)

/-- The decimal digits of a natural number, most significant first, as ASCII
bytes; the number 0 is the single digit `0`. -/
def natDigits (n : Nat) : GoString := natDigitsAux (n + 1) n []

/-- The function `strconv.Itoa`. -/
def itoa (i : Int) : GoString :=
  match i with
  | Int.ofNat n => natDigits n
  | Int.negSucc n => 45 :: natDigits (n + 1)

/-! ## The exit listener (the loop of `doWork`) -/

/-- What one call `r.Read(b)` returned: the bytes `b[:n]` it delivered (so `n`
is the length of `data`) and the error, if any. -/
structure ReadResult where
  data : GoString
  err : Option GoString
  deriving DecidableEq, Repr

/-- How a run of the main task stands. -/
inductive Outcome where
  /-- Still in the polling loop: every read so far returned zero bytes. -/
  | waiting
  /-- The function `doWork` returned this exit code. -/
  | returned (exitCode : Int)
  /-- A run-time panic with this message: the process crashes. -/
  | panicked (msg : String)
  deriving DecidableEq, Repr

/-- The capacity of the buffer `b := make([]byte, 8)`. -/
def exitBufLen : Nat := 8

/-- The message `fmt.Sprintf("Got strVal: %s, returning exit code %d", ...)`. -/
def gotMessage (strVal : GoString) (exitCode : Int) : GoString :=
  ascii "Got strVal: " ++ strVal ++ ascii ", returning exit code " ++ itoa exitCode

/-- The body of the `if n > 0` branch of the loop of `doWork` on the bytes
`b[:n]`: the exit code and the line sent to the log, or a panic when
`strings.Fields` yields no field and element `[0]` is taken. -/
def decodeToken (data : GoString) : Except String (Int × GoString) :=
  match fields data with
  | [] => .error "runtime error: index out of range [0] with length 0"
  | strVal :: _ =>
    let exitCode := (atoi strVal).1
    .ok (exitCode, gotMessage strVal exitCode)

/-- The polling loop of `doWork` over the results of the successive calls
`r.Read(b)`; `log` collects what is sent on `mox.Log`. A read of zero bytes
sleeps and retries (its error is dropped), the first read with `n > 0`
decides. With no read result left the loop is still waiting. -/
def exitLoop : List ReadResult → List GoString → Outcome × List GoString
  | [], log => (.waiting, log)
  | r :: rest, log =>
    if r.data.length > exitBufLen then
      (.panicked "runtime error: slice bounds out of range", log)
    else if r.data.length > 0 then
      match decodeToken r.data with
      | .error msg => (.panicked msg, log)
      | .ok (exitCode, line) => (.returned exitCode, log ++ [line])
    else exitLoop rest log

/-- A FIFO as the reader sees it: a read into a buffer of `len` bytes takes up to
`len` of the bytes that are in the pipe; with an empty pipe (and a writer
attached) a non-blocking read fails with `EAGAIN` and delivers nothing. The
result is the read result and the bytes left in the pipe. -/
def pipeRead (len : Nat) (pipe : GoString) : ReadResult × GoString :=
  if pipe = [] then (⟨[], some (ascii "resource temporarily unavailable")⟩, [])
  else (⟨pipe.take len, none⟩, pipe.drop len)

/-- The read results the listener gets from the `mox_exit` FIFO when an external
writer acts as `writes` says: before the i-th poll it appends the i-th
element (possibly nothing) to the pipe in one write. -/
def fifoReads (len : Nat) : List GoString → GoString → List ReadResult
  | [], _ => []
  | w :: ws, pipe =>
    let r := pipeRead len (pipe ++ w)
    r.1 :: fifoReads len ws r.2

/-! ## `filepath.Clean` and `filepath.Join` (Unix) -/

/-- One element of a path in `filepath.Clean`, on the state `(ups, elems)`: the
number of leading `..` elements kept and the elements after them. An empty
element and `.` are dropped; `..` removes the last element if there is one,
is dropped at the root of a rooted path, and is kept in front otherwise; any
other element is appended. -/
def cleanStep (rooted : Bool) (st : Nat × List GoString) (c : GoString) : Nat × List GoString :=
  if c = [] ∨ c = [46] then st
  else if c = [46, 46] then
    if st.2 ≠ [] then (st.1, st.2.dropLast)
    else if rooted then st
    else (st.1 + 1, [])
  else (st.1, st.2 ++ [c])

/-- The state of `filepath.Clean` after all the elements of `path`. -/
def cleanState (path : GoString) : Nat × List GoString :=
  (path.splitOn 47).foldl (cleanStep (path.head? == some 47)) (0, [])

/-- The function `filepath.Clean` with separator `/`: the elements that are left,
joined by single separators, after a leading `/` for a rooted path; the
empty result is `.`. -/
def clean (path : GoString) : GoString :=
  let st := cleanState path
  let body := [47].intercalate (List.replicate st.1 [46, 46] ++ st.2)
  if path.head? == some 47 then 47 :: body
  else if body = [] then [46]
  else body

/-- The function `filepath.Join`: leading empty elements are ignored, the rest is
joined with `/` and cleaned; the result is empty when every element is. -/
def join (elem : List GoString) : GoString :=
  match elem.dropWhile (fun e => e == []) with
  | [] => []
  | e :: es => clean ([47].intercalate (e :: es))

/-! ## The operating system as seen by the program -/

/-- The flags of the two opens of a FIFO (values of linux/amd64). -/
def O_RDONLY : Nat := 0

/-- Write-only open. -/
def O_WRONLY : Nat := 1

/-- Non-blocking open. -/
def O_NONBLOCK : Nat := 0x800

/-- A system call the program issued, with its arguments. -/
inductive Syscall where
  | mkfifo (path : GoString) (mode : Nat)
  | openFile (path : GoString) (flag : Nat) (perm : Nat)
  deriving DecidableEq, Repr

/-- An open file: a non-nil `*os.File`. -/
structure File where
  path : GoString
  flag : Nat
  deriving DecidableEq, Repr

/-- What the operating system answers. An error is given by its text
(`err.Error()`), `none` is success. -/
structure OS where
  /-- The value of `os.Getpid()`. -/
  pid : Int
  /-- The value of `os.Args[0]`. -/
  args0 : GoString
  /-- The result of `os.UserHomeDir()`. -/
  homeDir : GoString × Option GoString
  /-- The error of `os.Getwd()`. -/
  getwdErr : Option GoString
  /-- The error of `os.MkdirAll(path, 0755)`. -/
  mkdirAll : GoString → Option GoString
  /-- The error of `os.Create(path)` followed by the encoding, for `context.json`. -/
  writeFile : GoString → Option GoString
  /-- The error of `syscall.Mkfifo(path, mode)`. -/
  mkfifo : GoString → Nat → Option GoString
  /-- The error of `os.OpenFile(path, flag, perm)`. -/
  openFile : GoString → Nat → Nat → Option GoString
  /-- The results of the successive reads on the read end of `mox_exit`. -/
  exitReads : List ReadResult

/-- The running instance: the fields of `Moxecutable` the main task works with,
the messages sent on `mox.Log` so far (in order), the system calls made by
`openFifo` so far, the relays started and whether `mox.Log` is closed. -/
structure Mox where
  pid : Int
  args0 : GoString
  dir : GoString
  log : List GoString
  calls : List Syscall
  relays : List (File × GoString)
  logClosed : Bool
  deriving DecidableEq, Repr

/-- The statement `mox.Log <- msg`. -/
def Mox.send (mox : Mox) (msg : GoString) : Mox := { mox with log := mox.log ++ [msg] }

/-- The statement `mox.Log <- err.Error()` under `if err != nil`. -/
def Mox.sendErr (mox : Mox) (err : Option GoString) : Mox :=
  match err with
  | none => mox
  | some e => mox.send e

/-! ## `openFifo` -/

/-- The method `openFifo`: `Mkfifo`, then the read-only and the write-only
non-blocking open; the first failure is sent to the log and ends the call
with two nil handles. -/
def openFifo (os : OS) (mox : Mox) (fileName : GoString) : (Option File × Option File) × Mox :=
  let pathName := join [mox.dir, fileName]
  let mox1 := { mox with calls := mox.calls ++ [Syscall.mkfifo pathName 0o755] }
  match os.mkfifo pathName 0o755 with
  | some e => ((none, none), mox1.send e)
  | none =>
    let mox2 := { mox1 with
      calls := mox1.calls ++ [Syscall.openFile pathName (O_RDONLY ||| O_NONBLOCK) 0] }
    match os.openFile pathName (O_RDONLY ||| O_NONBLOCK) 0 with
    | some e => ((none, none), mox2.send e)
    | none =>
      let mox3 := { mox2 with
        calls := mox2.calls ++ [Syscall.openFile pathName (O_WRONLY ||| O_NONBLOCK) 0] }
      match os.openFile pathName (O_WRONLY ||| O_NONBLOCK) 0 with
      | some e => ((none, none), mox3.send e)
      | none =>
        ((some ⟨pathName, O_RDONLY ||| O_NONBLOCK⟩, some ⟨pathName, O_WRONLY ||| O_NONBLOCK⟩),
          mox3)

/-! ## `newMoxecutable` and `writeContext` -/

/-- The instance directory
`filepath.Join(homedir, "moxecutable", mox.Args[0], strconv.Itoa(mox.Pid))`. -/
def instanceDir (home args0 : GoString) (pid : Int) : GoString :=
  join [home, ascii "moxecutable", args0, itoa pid]

/-- The method `writeContext`: what it sends to the log. -/
def writeContext (os : OS) (mox : Mox) : Mox :=
  (mox.send (ascii "Writing context file")).sendErr
    (os.writeFile (join [mox.dir, ascii "context.json"]))

/-- The function `newMoxecutable`, main task only: the two tasks it starts
(`handleLogs`, `handleInput`) are modelled on their own. -/
def newMoxecutable (os : OS) : Mox :=
  let mox : Mox :=
    { pid := os.pid, args0 := os.args0, dir := [], log := [], calls := [], relays := [],
      logClosed := false }
  let mox := mox.sendErr os.getwdErr
  let mox := mox.sendErr os.homeDir.2
  let mox := { mox with dir := instanceDir os.homeDir.1 mox.args0 mox.pid }
  let mox := mox.sendErr (os.mkdirAll mox.dir)
  writeContext os mox

/-! ## `doWork` -/

/-- The panic of a method call on a nil interface value. -/
def nilDeref : String := "runtime error: invalid memory address or nil pointer dereference"

/-- The end of `doWork` once the polling loop has been followed as far as the
read results go: while the loop waits nothing else happens; when it ends by
`break` or by a panic, the deferred `close(mox.Log)` runs. -/
def leaveLoop (mox : Mox) : Outcome × List GoString → Outcome × Mox
  | (.waiting, log) => (.waiting, { mox with log := log })
  | (outcome, log) => (outcome, { mox with log := log, logClosed := true })

/-- The function `doWork`, main task. A `defer x.Close()` evaluates the method
value `x.Close` when the `defer` statement runs, which panics for a nil
interface; `r.Read(b)` panics likewise for a nil `r`. The deferred
`close(mox.Log)` runs when the function returns or panics after line 136. -/
def doWork (os : OS) : Outcome × Mox :=
  let mox := newMoxecutable os
  let (out, mox) := openFifo os mox (ascii "stdout")
  match out.2, out.1 with
  | none, _ => (.panicked nilDeref, mox)
  | some _, none => (.panicked nilDeref, mox)
  | some _, some rOut =>
    let mox := { mox with relays := mox.relays ++ [(rOut, ascii "/dev/stdout")] }
    let (err, mox) := openFifo os mox (ascii "stderr")
    match err.2, err.1 with
    | none, _ => (.panicked nilDeref, mox)
    | some _, none => (.panicked nilDeref, mox)
    | some _, some rErr =>
      let mox := { mox with relays := mox.relays ++ [(rErr, ascii "/dev/stderr")] }
      let mox := mox.send (ascii "Waiting for exit")
      let (ex, mox) := openFifo os mox (ascii "mox_exit")
      match ex.1 with
      | none => (.panicked nilDeref, { mox with logClosed := true })
      | some _ => leaveLoop mox (exitLoop os.exitReads mox.log)

/-! ## Writers -/

/-- What one call `Write(buf)` returned: the number of bytes taken and the
error, if any. -/
structure WriteResult where
  n : Nat
  err : Option GoString
  deriving DecidableEq, Repr

/-- A destination of writes (a file, the real stdout): what `Write(buf)` returns,
given the bytes the destination holds so far. Of `buf` the first `n` bytes
reach the destination. -/
abbrev Writer := GoString → GoString → WriteResult

/-- A destination that takes every write in full. -/
def takesAll : Writer := fun _ buf => ⟨buf.length, none⟩

/-! ## `handleLogs` -/

/-- The method `handleLogs` on the messages received from `mox.Log` until it is
closed: the content of `log.txt` at the end, or the panic when the file
cannot be created (`createErr` is the error of `os.Create`). The result of
`logFile.WriteString(message + "\n")` is not looked at. -/
def handleLogs (createErr : Option GoString) (logFile : Writer) (queue : List GoString) :
    Except String GoString :=
  match createErr with
  | some _ => .error "Unable to create logs file"
  | none =>
    .ok (queue.foldl
      (fun content message =>
        content ++ (message ++ [10]).take (logFile content (message ++ [10])).n) [])

/-- The lines of a text file: the pieces ended by a line feed, and the piece
after the last line feed when it is not empty. -/
def fileLines (content : GoString) : List GoString :=
  let parts := content.splitOn 10
  if parts.getLast? = some [] then parts.dropLast else parts

/-! ## `forwardingLoop` and `io.Copy` -/

/-- Where a relay stands: inside `io.Copy` about to call `src.Read`, inside
`io.Copy` holding the bytes of the last read (and its error) about to call
`dst.Write`, or in `time.Sleep` after `io.Copy` returned. There is no state
for a relay that has ended: the loop `for` has no exit. -/
inductive RelayPc where
  | reading
  | writing (buf : GoString) (er : Option GoString)
  | sleeping
  deriving DecidableEq, Repr

/-- A relay `forwardingLoop(from, to)`: the results of the reads of `from` still
to come, all the bytes read so far, all the bytes passed to `to.Write` so
far and all the bytes that reached `to` so far. -/
structure Relay where
  pc : RelayPc
  src : List ReadResult
  read : GoString
  handed : GoString
  written : GoString
  deriving DecidableEq, Repr

/-- One step of the relay writing to `dst`. The function `io.Copy` reads; when
`nr > 0` it passes what it read to `dst.Write`, once; it returns when the
write reported an error or was short, or when the read reported an error
(`EOF` included), after which the relay sleeps and calls `io.Copy` again.
The only state without a step is a relay waiting in `src.Read` for a result
that has not been supplied. -/
def Relay.step (dst : Writer) (s : Relay) : Option Relay :=
  match s.pc with
  | .sleeping => some { s with pc := .reading }
  | .writing buf er =>
    let w := dst s.written buf
    some { s with
      pc := if w.err.isSome || w.n != buf.length || er.isSome then .sleeping else .reading
      handed := s.handed ++ buf
      written := s.written ++ buf.take w.n }
  | .reading =>
    match s.src with
    | [] => none
    | r :: rest =>
      some { s with
        pc := if r.data.length > 0 then .writing r.data r.err
              else if r.err.isSome then .sleeping else .reading
        src := rest
        read := s.read ++ r.data }

/-- The relay after `n` steps (it stays where it is while it has to wait). -/
def Relay.run (dst : Writer) : Nat → Relay → Relay
  | 0, s => s
  | n + 1, s =>
    match s.step dst with
    | none => s
    | some s1 => Relay.run dst n s1

/-- The call `go mox.forwardingLoop(from, to)` on a source that will answer its
reads with `reads`. -/
def forwardingLoop (reads : List ReadResult) : Relay :=
  { pc := .reading, src := reads, read := [], handed := [], written := [] }

/-! ## Notions used in the statements -/

/-- A decimal digit `0 .. 9` in ASCII. -/
def isDigit (b : Nat) : Bool := 48 ≤ b && b ≤ 57

/-- The specification's "base-10 signed integer": an optional sign `+` or `-`
followed by one or more decimal digits. -/
def isDecimal : GoString → Bool
  | [] => false
  | c :: rest =>
    if c = 43 ∨ c = 45 then !rest.isEmpty && rest.all isDigit
    else (c :: rest).all isDigit

/-- The number written by a string of decimal digits. -/
def digitsValue (ds : GoString) : Nat := ds.foldl (fun n d => 10 * n + (d - 48)) 0

/-- The integer a base-10 signed integer denotes. -/
def decimalValue : GoString → Int
  | [] => 0
  | c :: rest =>
    if c = 45 then -(digitsValue rest : Int)
    else if c = 43 then (digitsValue rest : Int)
    else (digitsValue (c :: rest) : Int)

/-- The elements of a path that `filepath.Clean` keeps as they are when there is
no `..`: the pieces between separators that are neither empty nor `.`. -/
def keptElements (path : GoString) : List GoString :=
  (path.splitOn 47).filter (fun c => !(c == []) && !(c == [46]))

/-- The bytes a relay holds between a read and the write that follows it. -/
def Relay.pending (s : Relay) : GoString :=
  match s.pc with
  | .writing buf _ => buf
  | _ => []

/-- All the bytes of a sequence of read results, in order. -/
def chunks (reads : List ReadResult) : GoString := (reads.map (fun r => r.data)).flatten

/-! ## Inputs of the examples -/

/-- A read that found the pipe empty. -/
def emptyRead : ReadResult := ⟨[], some (ascii "resource temporarily unavailable")⟩

/-- An operating system on which every call succeeds, for the program `moxy`
started as process 4242 by a user with home `/home/u`, where an external
writer puts `payload` into `mox_exit` in one write before the third poll and
`later` before the fourth. -/
def demoOS (payload later : GoString) : OS :=
  { pid := 4242
    args0 := ascii "moxy"
    homeDir := (ascii "/home/u", none)
    getwdErr := none
    mkdirAll := fun _ => none
    writeFile := fun _ => none
    mkfifo := fun _ _ => none
    openFile := fun _ _ _ => none
    exitReads := fifoReads exitBufLen [[], [], payload, later] [] }

/-- The operating system of `demoOS` (the writer sends `0\n`), except that
`Mkfifo` fails with `file exists` for the one path `failing`. -/
def brokenOS (failing : GoString) : OS :=
  { demoOS (ascii "0\n") [] with
    mkfifo := fun p _ => if p = failing then some (ascii "file exists") else none }

/-- An instance before any channel is opened, in the directory `/d`. -/
def demoMox : Mox :=
  { pid := 4242, args0 := ascii "moxy", dir := ascii "/d", log := [], calls := [],
    relays := [], logClosed := false }

/-- A destination that fails the write of the one buffer `bad` with
`no space left on device`, taking nothing of it, and takes every other write
in full. -/
def failsOn (bad : GoString) : Writer :=
  fun _ buf =>
    if buf = bad then ⟨0, some (ascii "no space left on device")⟩ else ⟨buf.length, none⟩

/-! # Lemmas -/

/-! ## Lemmas on `strings.Fields` -/

theorem fieldsASCII_sublist (s : GoString) :
    ∀ (cur : Option GoString) (tok : GoString), tok ∈ fieldsASCII s cur →
      tok.Sublist (cur.getD [] ++ s) := by
  induction s with
  | nil =>
    intro cur tok h
    cases cur with
    | none => simp [fieldsASCII] at h
    | some c => simp [fieldsASCII] at h; subst h; simp
  | cons b rest ih =>
    intro cur tok h
    cases cur with
    | none =>
      simp only [fieldsASCII] at h
      split at h
      · have := ih none tok h
        simp only [Option.getD_none, List.nil_append] at this ⊢
        exact this.cons b
      · simpa using ih (some [b]) tok h
    | some c =>
      simp only [fieldsASCII] at h
      split at h
      · rcases List.mem_cons.1 h with h | h
        · subst h; simp
        · have := ih none tok h
          simp only [Option.getD_none, List.nil_append, Option.getD_some] at this ⊢
          exact (this.cons b).trans (List.sublist_append_right c (b :: rest))
      · simpa using ih (some (c ++ [b])) tok h

theorem runesAux_bytes_sublist (n : Nat) :
    ∀ s : GoString, ((runesAux n s).map (fun r => r.2)).flatten.Sublist s := by
  induction n with
  | zero => intro s; simp [runesAux]
  | succ n ih =>
    intro s
    cases s with
    | nil => simp [runesAux]
    | cons b rest =>
      simp only [runesAux, List.map_cons, List.flatten_cons]
      have h1 := ih ((b :: rest).drop (decodeRune (b :: rest)).2)
      have h2 := List.Sublist.append_left h1 ((b :: rest).take (decodeRune (b :: rest)).2)
      rwa [List.take_append_drop] at h2

theorem fieldsFuncAux_sublist (f : Nat → Bool) (rs : List (Nat × GoString)) :
    ∀ (cur : Option GoString) (tok : GoString), tok ∈ fieldsFuncAux f rs cur →
      tok.Sublist (cur.getD [] ++ (rs.map (fun r => r.2)).flatten) := by
  induction rs with
  | nil =>
    intro cur tok h
    cases cur with
    | none => simp [fieldsFuncAux] at h
    | some c => simp [fieldsFuncAux] at h; subst h; simp
  | cons r rest ih =>
    obtain ⟨r, bs⟩ := r
    intro cur tok h
    cases cur with
    | none =>
      simp only [fieldsFuncAux] at h
      split at h
      · have := ih none tok h
        simp only [Option.getD_none, List.nil_append, List.map_cons, List.flatten_cons] at this ⊢
        exact this.trans (List.sublist_append_right bs _)
      · simpa using ih (some bs) tok h
    | some c =>
      simp only [fieldsFuncAux] at h
      split at h
      · rcases List.mem_cons.1 h with h | h
        · subst h; simp
        · have := ih none tok h
          simp only [Option.getD_none, List.nil_append, Option.getD_some, List.map_cons,
            List.flatten_cons] at this ⊢
          exact (this.trans (List.sublist_append_right bs _)).trans
            (List.sublist_append_right c _)
      · simpa using ih (some (c ++ bs)) tok h

/-- Every field is made of bytes of the string, in order. -/
theorem fields_sublist (s tok : GoString) (h : tok ∈ fields s) : tok.Sublist s := by
  unfold fields at h
  split at h
  · simpa using fieldsASCII_sublist s none tok h
  · have h1 := fieldsFuncAux_sublist unicodeIsSpace (runes s) none tok h
    simp only [Option.getD_none, List.nil_append] at h1
    exact h1.trans (runesAux_bytes_sublist s.length s)

/-! ## Lemmas on `strconv.Atoi` -/

theorem atoiDigits_of_digits (ds : GoString) :
    ∀ n : Nat, ds.all isDigit = true →
      atoiDigits ds n = some (ds.foldl (fun n d => 10 * n + (d - 48)) n) := by
  induction ds with
  | nil => intro n _; simp [atoiDigits]
  | cons d rest ih =>
    intro n h
    simp only [List.all_cons, Bool.and_eq_true, isDigit, decide_eq_true_eq] at h
    obtain ⟨⟨h1, h2⟩, h3⟩ := h
    have hd : (d + 256 - 48) % 256 = d - 48 := by omega
    simp only [atoiDigits, hd, List.foldl_cons]
    rw [if_neg (by omega), ih _ h3]
    congr 2
    omega

theorem atoiDigits_some_digits (ds : GoString) :
    ∀ n m : Nat, (∀ b ∈ ds, b < 256) → atoiDigits ds n = some m → ds.all isDigit = true := by
  induction ds with
  | nil => intro n m _ _; simp
  | cons d rest ih =>
    intro n m hb h
    have hd := hb d (List.mem_cons_self _ _)
    simp only [atoiDigits] at h
    split at h
    · simp at h
    · rename_i hd9
      simp only [List.all_cons, Bool.and_eq_true, isDigit, decide_eq_true_eq]
      exact ⟨by omega, ih _ _ (fun b hb1 => hb b (List.mem_cons_of_mem _ hb1)) h⟩

/-- The fast path of `Atoi` on a base-10 signed integer: its value, no error. -/
theorem atoi_of_decimal (tok : GoString) (hdec : isDecimal tok = true) (hlen : tok.length < 19) :
    atoi tok = (decimalValue tok, none) := by
  cases tok with
  | nil => simp [isDecimal] at hdec
  | cons c rest =>
    simp only [atoi, hlen, if_true]
    by_cases hs : c = 43 ∨ c = 45
    · simp only [isDecimal, hs, if_true, Bool.and_eq_true, Bool.not_eq_true',
        List.isEmpty_eq_false] at hdec
      obtain ⟨hne, hall⟩ := hdec
      have hsigned : (c == 45 || c == 43) = true := by
        rcases hs with h | h <;> simp [h]
      have hlen1 : ¬ rest.length < 1 := by
        cases rest with
        | nil => simp at hne
        | cons _ _ => simp
      simp only [hsigned, if_true, Bool.true_and, decide_eq_true_eq, hlen1, if_false]
      rw [atoiDigits_of_digits rest 0 hall]
      rcases hs with h | h <;> subst h <;> simp [decimalValue, digitsValue]
    · simp only [isDecimal, hs, if_false] at hdec
      have h43 : c ≠ 43 := fun h => hs (Or.inl h)
      have h45 : c ≠ 45 := fun h => hs (Or.inr h)
      have hsigned : (c == 45 || c == 43) = false := by simp [h43, h45]
      simp only [hsigned, Bool.false_and, Bool.false_eq_true, if_false]
      rw [atoiDigits_of_digits (c :: rest) 0 hdec]
      simp [decimalValue, digitsValue, h43, h45]

/-- On a string of fewer than 19 bytes that is not a base-10 signed integer,
`Atoi` returns the value 0 (with a syntax error, which `doWork` drops). -/
theorem atoi_of_not_decimal (tok : GoString) (hb : ∀ b ∈ tok, b < 256)
    (hdec : isDecimal tok = false) (hlen : tok.length < 19) : (atoi tok).1 = 0 := by
  cases tok with
  | nil => simp [atoi, parseInt]
  | cons c rest =>
    simp only [atoi, hlen, if_true]
    by_cases hs : c = 43 ∨ c = 45
    · have hsigned : (c == 45 || c == 43) = true := by
        rcases hs with h | h <;> simp [h]
      simp only [hsigned, if_true, Bool.true_and, decide_eq_true_eq]
      by_cases hl : rest.length < 1
      · simp [hl]
      · simp only [hl, if_false]
        cases hn : atoiDigits rest 0 with
        | none => rfl
        | some n =>
          exfalso
          have hall := atoiDigits_some_digits rest 0 n
            (fun b hb1 => hb b (List.mem_cons_of_mem _ hb1)) hn
          have hne : rest.isEmpty = false := by
            cases rest with
            | nil => simp at hl
            | cons _ _ => rfl
          simp [isDecimal, hs, hall, hne] at hdec
    · simp only [isDecimal, hs, if_false] at hdec
      have h43 : c ≠ 43 := fun h => hs (Or.inl h)
      have h45 : c ≠ 45 := fun h => hs (Or.inr h)
      have hsigned : (c == 45 || c == 43) = false := by simp [h43, h45]
      simp only [hsigned, Bool.false_and, Bool.false_eq_true, if_false]
      cases hn : atoiDigits (c :: rest) 0 with
      | none => rfl
      | some n =>
        have hall := atoiDigits_some_digits (c :: rest) 0 n hb hn
        rw [hall] at hdec
        exact absurd hdec (by simp)

/-! ## Lemmas on the exit listener -/

theorem exitLoop_skip_empty (pre : List ReadResult) (hpre : ∀ e ∈ pre, e.data.length = 0)
    (rs : List ReadResult) (log : List GoString) :
    exitLoop (pre ++ rs) log = exitLoop rs log := by
  induction pre with
  | nil => rfl
  | cons e pre ih =>
    have he := hpre e (List.mem_cons_self _ _)
    have ih1 := ih (fun x hx => hpre x (List.mem_cons_of_mem _ hx))
    simp only [List.cons_append, exitLoop, he]
    simpa using ih1

theorem exitLoop_outcome_log (rs : List ReadResult) (log : List GoString) :
    (exitLoop rs log).1 = (exitLoop rs []).1 := by
  induction rs with
  | nil => rfl
  | cons r rs ih =>
    simp only [exitLoop]
    split
    · rfl
    · split
      · cases decodeToken r.data with
        | error msg => rfl
        | ok v => rfl
      · exact ih

theorem fifoReads_idle (len k : Nat) (ws : List GoString) :
    fifoReads len (List.replicate k [] ++ ws) [] =
      List.replicate k emptyRead ++ fifoReads len ws [] := by
  induction k with
  | zero => rfl
  | succ k ih =>
    have h : pipeRead len ([] ++ []) = (emptyRead, []) := by simp [pipeRead, emptyRead]
    rw [List.replicate_succ, List.cons_append, List.replicate_succ, List.cons_append, fifoReads]
    simp only [h, ih]

theorem openFifo_of_success (os : OS) (mox : Mox) (fileName : GoString)
    (hmk : ∀ p m, os.mkfifo p m = none) (hop : ∀ p f m, os.openFile p f m = none) :
    ∃ mox1, openFifo os mox fileName =
      ((some ⟨join [mox.dir, fileName], O_RDONLY ||| O_NONBLOCK⟩,
        some ⟨join [mox.dir, fileName], O_WRONLY ||| O_NONBLOCK⟩), mox1) := by
  simp [openFifo, hmk, hop]

theorem leaveLoop_outcome (mox : Mox) (p : Outcome × List GoString) :
    (leaveLoop mox p).1 = p.1 := by
  obtain ⟨o, l⟩ := p
  cases o <;> rfl

/-- When every `Mkfifo` and `OpenFile` succeeds, `doWork` ends as its polling
loop ends. -/
theorem doWork_of_success (os : OS)
    (hmk : ∀ p m, os.mkfifo p m = none) (hop : ∀ p f m, os.openFile p f m = none) :
    (doWork os).1 = (exitLoop os.exitReads []).1 := by
  unfold doWork
  obtain ⟨m1, h1⟩ := openFifo_of_success os (newMoxecutable os) (ascii "stdout") hmk hop
  simp only [h1]
  obtain ⟨m2, h2⟩ := openFifo_of_success os
    { m1 with relays := m1.relays ++ [(⟨join [(newMoxecutable os).dir, ascii "stdout"],
      O_RDONLY ||| O_NONBLOCK⟩, ascii "/dev/stdout")] } (ascii "stderr") hmk hop
  simp only [h2]
  obtain ⟨m3, h3⟩ := openFifo_of_success os
    (Mox.send { m2 with relays := m2.relays ++ [(⟨join [m1.dir, ascii "stderr"],
      O_RDONLY ||| O_NONBLOCK⟩, ascii "/dev/stderr")] } (ascii "Waiting for exit"))
    (ascii "mox_exit") hmk hop
  simp only [Mox.send] at h3
  simp only [Mox.send, h3, leaveLoop_outcome]
  exact exitLoop_outcome_log _ _

/-- After reads of zero bytes only the listener is still waiting; and a first
read with data (at most 8 bytes) that has a field ends the loop with the
exit code `Atoi` gives for that field and one log line, whatever the reads
of zero bytes before it and whatever the reads after it. -/
theorem exitLoop_first_read_with_field (pre post : List ReadResult) (r : ReadResult)
    (log : List GoString) (tok : GoString) (rest : List GoString)
    (hpre : ∀ e ∈ pre, e.data.length = 0) (hlen : r.data.length ≤ exitBufLen)
    (hfield : fields r.data = tok :: rest) :
    exitLoop pre log = (.waiting, log) ∧
    exitLoop (pre ++ r :: post) log =
      (.returned (atoi tok).1, log ++ [gotMessage tok (atoi tok).1]) := by
  have hpos : r.data.length > 0 := by
    cases hd : r.data with
    | nil => rw [hd] at hfield; simp [fields, fieldsASCII] at hfield
    | cons b t => simp
  refine ⟨?_, ?_⟩
  · have := exitLoop_skip_empty pre hpre [] log
    simpa [exitLoop] using this
  · rw [exitLoop_skip_empty pre hpre]
    simp only [exitLoop, Nat.not_lt.2 hlen, if_false, hpos, if_true, decodeToken, hfield]

/-! ## Lemmas on splitting and joining paths -/

theorem modifyHead_append_of_ne_nil {α : Type} (f : α → α) (l1 l2 : List α) (h : l1 ≠ []) :
    (l1 ++ l2).modifyHead f = l1.modifyHead f ++ l2 := by
  cases l1 with
  | nil => exact absurd rfl h
  | cons a t => rfl

theorem splitOn_ne_nil (a : Nat) (s : GoString) : s.splitOn a ≠ [] :=
  List.splitOnP_ne_nil _ s

theorem splitOn_cons (a x : Nat) (s : GoString) :
    (x :: s).splitOn a =
      if x = a then [] :: s.splitOn a else (s.splitOn a).modifyHead (List.cons x) := by
  simp only [List.splitOn, List.splitOnP_cons, beq_iff_eq]

theorem splitOn_append_sep (a : Nat) (s t : GoString) :
    (s ++ a :: t).splitOn a = s.splitOn a ++ t.splitOn a := by
  induction s with
  | nil => simp [splitOn_cons, List.splitOn_nil]
  | cons x s ih =>
    rw [List.cons_append, splitOn_cons, splitOn_cons, ih]
    by_cases hx : x = a
    · simp [hx]
    · simp only [hx, if_false]
      exact modifyHead_append_of_ne_nil _ _ _ (splitOn_ne_nil a s)

theorem not_mem_of_mem_splitOn (a : Nat) (s : GoString) :
    ∀ c ∈ s.splitOn a, a ∉ c := by
  induction s with
  | nil => intro c hc; simp [List.splitOn_nil] at hc; simp [hc]
  | cons x s ih =>
    intro c hc
    rw [splitOn_cons] at hc
    by_cases hx : x = a
    · simp only [hx, if_true, List.mem_cons] at hc
      rcases hc with hc | hc
      · simp [hc]
      · exact ih c hc
    · simp only [hx, if_false] at hc
      cases hs : s.splitOn a with
      | nil => exact absurd hs (splitOn_ne_nil a s)
      | cons h t =>
        rw [hs] at hc
        simp only [List.modifyHead, List.mem_cons] at hc
        rcases hc with hc | hc
        · subst hc
          have := ih h (by simp [hs])
          simp only [List.mem_cons, not_or]
          exact ⟨fun e => hx e.symm, this⟩
        · exact ih c (by simp [hs, hc])

theorem splitOn_of_not_mem (a : Nat) (s : GoString) (h : a ∉ s) : s.splitOn a = [s] := by
  apply List.splitOnP_eq_single
  intro x hx hxa
  simp only [beq_iff_eq] at hxa
  exact h (hxa ▸ hx)

theorem intercalate_cons_cons (sep a b : GoString) (l : List GoString) :
    sep.intercalate (a :: b :: l) = a ++ sep ++ sep.intercalate (b :: l) := by
  simp [List.intercalate, List.intersperse]

theorem intercalate_append_of_ne_nil (sep : GoString) (l1 l2 : List GoString)
    (h1 : l1 ≠ []) (h2 : l2 ≠ []) :
    sep.intercalate (l1 ++ l2) = sep.intercalate l1 ++ sep ++ sep.intercalate l2 := by
  induction l1 with
  | nil => exact absurd rfl h1
  | cons a t ih =>
    cases t with
    | nil =>
      cases l2 with
      | nil => exact absurd rfl h2
      | cons b l => simp [intercalate_cons_cons, List.intercalate, List.intersperse]
    | cons c t =>
      have := ih (by simp)
      rw [List.cons_append, List.cons_append, intercalate_cons_cons, ← List.cons_append, this,
        intercalate_cons_cons]
      simp [List.append_assoc]

/-! ## Lemmas on `filepath.Clean` -/

theorem foldl_cleanStep_kept (rooted : Bool) (cs : List GoString) :
    ∀ st : Nat × List GoString, [46, 46] ∉ cs →
      cs.foldl (cleanStep rooted) st =
        (st.1, st.2 ++ cs.filter (fun c => !(c == []) && !(c == [46]))) := by
  induction cs with
  | nil => intro st _; simp
  | cons c cs ih =>
    intro st h
    simp only [List.mem_cons, not_or] at h
    obtain ⟨hc, hcs⟩ := h
    rw [List.foldl_cons, ih _ hcs]
    by_cases h1 : c = [] ∨ c = [46]
    · have hk : (!(c == []) && !(c == [46])) = false := by
        rcases h1 with h | h <;> simp [h]
      have hstep : cleanStep rooted st c = st := by simp [cleanStep, h1]
      rw [List.filter_cons, hk, hstep]
      rfl
    · have h2 : c ≠ [46, 46] := fun e => hc e.symm
      have hk : (!(c == []) && !(c == [46])) = true := by
        simp only [not_or] at h1
        simp [h1.1, h1.2]
      have hstep : cleanStep rooted st c = (st.1, st.2 ++ [c]) := by simp [cleanStep, h1, h2]
      rw [List.filter_cons, hk, hstep]
      simp

/-! ## Lemmas on `strconv.Itoa` -/

theorem natDigitsAux_bytes (fuel : Nat) :
    ∀ (n : Nat) (acc : GoString), (∀ b ∈ acc, 48 ≤ b ∧ b ≤ 57) →
      ∀ b ∈ natDigitsAux fuel n acc, 48 ≤ b ∧ b ≤ 57 := by
  induction fuel with
  | zero => intro n acc h; simpa [natDigitsAux] using h
  | succ fuel ih =>
    intro n acc h b hb
    simp only [natDigitsAux] at hb
    split at hb
    · rcases List.mem_cons.1 hb with hb | hb
      · omega
      · exact h b hb
    · refine ih (n / 10) _ ?_ b hb
      intro x hx
      rcases List.mem_cons.1 hx with hx | hx
      · omega
      · exact h x hx

theorem natDigitsAux_ne_nil (fuel : Nat) :
    ∀ (n : Nat) (acc : GoString), 0 < fuel ∨ acc ≠ [] → natDigitsAux fuel n acc ≠ [] := by
  induction fuel with
  | zero => intro n acc h; simpa [natDigitsAux] using h
  | succ fuel ih =>
    intro n acc _
    simp only [natDigitsAux]
    split
    · simp
    · exact ih _ _ (Or.inr (by simp))

theorem natDigitsAux_value (fuel : Nat) :
    ∀ (n : Nat) (acc : GoString), n < fuel →
      digitsValue (natDigitsAux fuel n acc) = acc.foldl (fun n d => 10 * n + (d - 48)) n := by
  induction fuel with
  | zero => intro n acc h; omega
  | succ fuel ih =>
    intro n acc h
    simp only [natDigitsAux]
    split
    · simp [digitsValue]
    · rw [ih (n / 10) _ (by omega)]
      simp only [List.foldl_cons]
      congr 1
      omega

/-- The digits written by `Itoa` read back as the number. -/
theorem digitsValue_natDigits (n : Nat) : digitsValue (natDigits n) = n := by
  simpa using natDigitsAux_value (n + 1) n [] (by omega)

theorem natDigits_bytes (n : Nat) : ∀ b ∈ natDigits n, 48 ≤ b ∧ b ≤ 57 :=
  natDigitsAux_bytes (n + 1) n [] (by simp)

theorem natDigits_ne_nil (n : Nat) : natDigits n ≠ [] :=
  natDigitsAux_ne_nil (n + 1) n [] (Or.inl (by omega))

theorem natDigits_injective (n m : Nat) (h : natDigits n = natDigits m) : n = m := by
  rw [← digitsValue_natDigits n, ← digitsValue_natDigits m, h]

theorem itoa_bytes (i : Int) : ∀ b ∈ itoa i, b = 45 ∨ (48 ≤ b ∧ b ≤ 57) := by
  intro b hb
  cases i with
  | ofNat n => exact Or.inr (natDigits_bytes n b hb)
  | negSucc n =>
    simp only [itoa] at hb
    rcases List.mem_cons.1 hb with hb | hb
    · exact Or.inl hb
    · exact Or.inr (natDigits_bytes _ b hb)

theorem itoa_ne_nil (i : Int) : itoa i ≠ [] := by
  cases i with
  | ofNat n => exact natDigits_ne_nil n
  | negSucc n => simp [itoa]

/-- The function `Itoa` is injective. -/
theorem itoa_injective (i j : Int) (h : itoa i = itoa j) : i = j := by
  cases i with
  | ofNat n =>
    cases j with
    | ofNat m => exact congrArg Int.ofNat (natDigits_injective n m h)
    | negSucc m =>
      exfalso
      simp only [itoa] at h
      have := natDigits_bytes n 45 (by rw [h]; simp)
      omega
  | negSucc n =>
    cases j with
    | ofNat m =>
      exfalso
      simp only [itoa] at h
      have := natDigits_bytes m 45 (by rw [← h]; simp)
      omega
    | negSucc m =>
      simp only [itoa, List.cons.injEq, true_and] at h
      have := natDigits_injective _ _ h
      have : n = m := by omega
      rw [this]

theorem itoa_no_slash (i : Int) : 47 ∉ itoa i := by
  intro h
  have := itoa_bytes i 47 h
  omega

theorem itoa_no_dot (i : Int) : 46 ∉ itoa i := by
  intro h
  have := itoa_bytes i 46 h
  omega

/-! ## The instance directory -/

theorem join_two (home m : GoString) (hm : m ≠ []) :
    join [home, m] = clean (if home = [] then m else home ++ 47 :: m) := by
  by_cases hh : home = []
  · subst hh
    cases m with
    | nil => exact absurd rfl hm
    | cons x t => simp [join, List.dropWhile, List.intercalate, List.intersperse]
  · cases home with
    | nil => exact absurd rfl hh
    | cons y home => simp [join, List.dropWhile, List.intercalate, List.intersperse]

theorem join_four (home m name p : GoString) (hm : m ≠ []) :
    join [home, m, name, p] =
      clean ((if home = [] then m else home ++ 47 :: m) ++ 47 :: (name ++ 47 :: p)) := by
  by_cases hh : home = []
  · subst hh
    cases m with
    | nil => exact absurd rfl hm
    | cons x t => simp [join, List.dropWhile, List.intercalate, List.intersperse]
  · cases home with
    | nil => exact absurd rfl hh
    | cons y home => simp [join, List.dropWhile, List.intercalate, List.intersperse]

theorem intercalate_snoc_ne_nil (l : List GoString) (m : GoString) (hm : m ≠ []) :
    [47].intercalate (l ++ [m]) ≠ [] := by
  cases l with
  | nil => simpa [List.intercalate, List.intersperse] using hm
  | cons a t =>
    rw [intercalate_append_of_ne_nil _ _ _ (by simp) (by simp)]
    simp

/-- The state of `Clean` after a path that ends in an ordinary element `m`
preceded by a separator (or that is just `m`): `m` is its last element. -/
theorem cleanState_base (home m : GoString) (h1 : 47 ∉ m) (h2 : m ≠ []) (h3 : m ≠ [46])
    (h4 : m ≠ [46, 46]) :
    ∃ e, (cleanState (if home = [] then m else home ++ 47 :: m)).2 = e ++ [m] := by
  by_cases hh : home = []
  · refine ⟨[], ?_⟩
    simp [hh, cleanState, splitOn_of_not_mem 47 m h1, cleanStep, h2, h3, h4]
  · simp only [hh, if_false, cleanState, splitOn_append_sep, splitOn_of_not_mem 47 m h1,
      List.foldl_append, List.foldl_cons, List.foldl_nil]
    generalize List.foldl _ (0, []) (home.splitOn 47) = st
    exact ⟨st.2, by simp [cleanStep, h2, h3, h4]⟩

/-- Cleaning a path that goes on, after a base ending in an ordinary element,
with a name without `..` and a last ordinary element `p`: the clean base,
the kept elements of the name, then `p`. -/
theorem clean_extend (s0 name p : GoString) (e : List GoString) (m : GoString)
    (hs0 : s0 ≠ []) (hst : (cleanState s0).2 = e ++ [m]) (hm : m ≠ [])
    (hname : [46, 46] ∉ name.splitOn 47)
    (hp1 : 47 ∉ p) (hp2 : p ≠ []) (hp3 : p ≠ [46]) (hp4 : p ≠ [46, 46]) :
    clean (s0 ++ 47 :: (name ++ 47 :: p)) =
      clean s0 ++ [47] ++ [47].intercalate (keptElements name ++ [p]) := by
  have hhead : (s0 ++ 47 :: (name ++ 47 :: p)).head? = s0.head? := by
    cases s0 with
    | nil => exact absurd rfl hs0
    | cons x t => rfl
  have hdd : [46, 46] ∉ name.splitOn 47 ++ [p] := by
    simp only [List.mem_append, List.mem_singleton, not_or]
    exact ⟨hname, fun h => hp4 h.symm⟩
  have hstate : cleanState (s0 ++ 47 :: (name ++ 47 :: p)) =
      ((cleanState s0).1, (cleanState s0).2 ++ (keptElements name ++ [p])) := by
    simp only [cleanState, hhead, splitOn_append_sep, splitOn_of_not_mem 47 p hp1,
      List.foldl_append]
    rw [← List.foldl_append, foldl_cleanStep_kept _ _ _ hdd, List.filter_append]
    simp [keptElements, List.filter_cons, hp2, hp3]
  have hbody0 : [47].intercalate (List.replicate (cleanState s0).1 [46, 46] ++ (cleanState s0).2)
      ≠ [] := by
    rw [hst, ← List.append_assoc]
    exact intercalate_snoc_ne_nil _ m hm
  have hbody : [47].intercalate (List.replicate (cleanState s0).1 [46, 46] ++
      ((cleanState s0).2 ++ (keptElements name ++ [p]))) =
      [47].intercalate (List.replicate (cleanState s0).1 [46, 46] ++ (cleanState s0).2) ++ [47]
        ++ [47].intercalate (keptElements name ++ [p]) := by
    rw [← List.append_assoc, intercalate_append_of_ne_nil _ _ _ (by simp [hst]) (by simp)]
  simp only [clean, hstate, hhead, hbody]
  by_cases hr : (s0.head? == some 47) = true
  · simp [hr]
  · simp [hr, hbody0]

/-- The layout of the instance directory for a program name without `..`. -/
theorem instanceDir_layout (home name : GoString) (pid : Int)
    (hname : [46, 46] ∉ name.splitOn 47) :
    instanceDir home name pid =
      join [home, ascii "moxecutable"] ++ [47] ++
        [47].intercalate (keptElements name ++ [itoa pid]) := by
  have hm1 : (47 : Nat) ∉ ascii "moxecutable" := by decide
  have hm2 : ascii "moxecutable" ≠ [] := by decide
  have hm3 : ascii "moxecutable" ≠ [46] := by decide
  have hm4 : ascii "moxecutable" ≠ [46, 46] := by decide
  have hp3 : itoa pid ≠ [46] := fun h => itoa_no_dot pid (by rw [h]; simp)
  have hp4 : itoa pid ≠ [46, 46] := fun h => itoa_no_dot pid (by rw [h]; simp)
  obtain ⟨e, he⟩ := cleanState_base home (ascii "moxecutable") hm1 hm2 hm3 hm4
  rw [instanceDir, join_four _ _ _ _ hm2, join_two _ _ hm2]
  refine clean_extend _ name (itoa pid) e (ascii "moxecutable") ?_ he hm2 hname
    (itoa_no_slash pid) (itoa_ne_nil pid) hp3 hp4
  by_cases hh : home = []
  · simpa [hh] using hm2
  · simp [hh]

theorem cleanStep_no_slash (rooted : Bool) (st : Nat × List GoString) (c : GoString)
    (hc : 47 ∉ c) (hst : ∀ x ∈ st.2, 47 ∉ x) : ∀ x ∈ (cleanStep rooted st c).2, 47 ∉ x := by
  intro x hx
  unfold cleanStep at hx
  split at hx
  · exact hst x hx
  · split at hx
    · split at hx
      · exact hst x (List.mem_of_mem_dropLast hx)
      · split at hx
        · exact hst x hx
        · simp at hx
    · rcases List.mem_append.1 hx with h | h
      · exact hst x h
      · rw [List.mem_singleton.1 h]; exact hc

theorem foldl_cleanStep_no_slash (rooted : Bool) (cs : List GoString) :
    ∀ st : Nat × List GoString, (∀ c ∈ cs, 47 ∉ c) → (∀ x ∈ st.2, 47 ∉ x) →
      ∀ x ∈ (cs.foldl (cleanStep rooted) st).2, 47 ∉ x := by
  induction cs with
  | nil => intro st _ hst; simpa using hst
  | cons c cs ih =>
    intro st hcs hst
    rw [List.foldl_cons]
    exact ih _ (fun y hy => hcs y (List.mem_cons_of_mem _ hy))
      (cleanStep_no_slash rooted st c (hcs c (List.mem_cons_self _ _)) hst)

/-- Whatever the path before it, a last ordinary element `p` after a separator
is the last element of the cleaned path. -/
theorem clean_last (s p : GoString) (hp1 : 47 ∉ p) (hp2 : p ≠ []) (hp3 : p ≠ [46])
    (hp4 : p ≠ [46, 46]) :
    ((clean (s ++ 47 :: p)).splitOn 47).getLast? = some p := by
  have hstate : cleanState (s ++ 47 :: p) =
      ((List.foldl (cleanStep ((s ++ 47 :: p).head? == some 47)) (0, []) (s.splitOn 47)).1,
       (List.foldl (cleanStep ((s ++ 47 :: p).head? == some 47)) (0, []) (s.splitOn 47)).2
          ++ [p]) := by
    simp only [cleanState, splitOn_append_sep, splitOn_of_not_mem 47 p hp1, List.foldl_append,
      List.foldl_cons, List.foldl_nil]
    simp [cleanStep, hp2, hp3, hp4]
  have hfree := foldl_cleanStep_no_slash ((s ++ 47 :: p).head? == some 47) (s.splitOn 47)
    (0, []) (not_mem_of_mem_splitOn 47 s) (by simp)
  generalize List.foldl (cleanStep ((s ++ 47 :: p).head? == some 47)) (0, []) (s.splitOn 47)
    = st at hstate hfree
  have hsplit : ([47].intercalate (List.replicate st.1 [46, 46] ++ (st.2 ++ [p]))).splitOn 47 =
      List.replicate st.1 [46, 46] ++ (st.2 ++ [p]) := by
    apply List.splitOn_intercalate
    · intro l hl
      rcases List.mem_append.1 hl with h | h
      · rw [List.eq_of_mem_replicate h]; decide
      · rcases List.mem_append.1 h with h | h
        · exact hfree l h
        · rw [List.mem_singleton.1 h]; exact hp1
    · simp
  have hne : [47].intercalate (List.replicate st.1 [46, 46] ++ (st.2 ++ [p])) ≠ [] := by
    rw [← List.append_assoc]
    exact intercalate_snoc_ne_nil _ p hp2
  simp only [clean, hstate]
  by_cases hr : ((s ++ 47 :: p).head? == some 47) = true
  · have hl : ([] : GoString) :: (List.replicate st.1 [46, 46] ++ (st.2 ++ [p])) =
        ([] :: (List.replicate st.1 [46, 46] ++ st.2)) ++ [p] := by simp
    rw [if_pos hr, splitOn_cons, if_pos rfl, hsplit, hl, List.getLast?_concat]
  · have hl : List.replicate st.1 [46, 46] ++ (st.2 ++ [p]) =
        (List.replicate st.1 [46, 46] ++ st.2) ++ [p] := by simp
    rw [if_neg hr, if_neg hne, hsplit, hl, List.getLast?_concat]

/-- The last element of the instance directory is the decimal process id,
whatever the home directory and the program name. -/
theorem instanceDir_last (home name : GoString) (pid : Int) :
    ((instanceDir home name pid).splitOn 47).getLast? = some (itoa pid) := by
  have hm2 : ascii "moxecutable" ≠ [] := by decide
  have hp3 : itoa pid ≠ [46] := fun h => itoa_no_dot pid (by rw [h]; simp)
  have hp4 : itoa pid ≠ [46, 46] := fun h => itoa_no_dot pid (by rw [h]; simp)
  rw [instanceDir, join_four _ _ _ _ hm2]
  have hassoc : ∀ s0 : GoString, s0 ++ 47 :: (name ++ 47 :: itoa pid) =
      (s0 ++ 47 :: name) ++ 47 :: itoa pid := by
    intro s0; simp
  rw [hassoc]
  exact clean_last _ _ (itoa_no_slash pid) (itoa_ne_nil pid) hp3 hp4

theorem splitOn_kept_pid (name : GoString) (pid : Int) :
    ([47].intercalate (keptElements name ++ [itoa pid])).splitOn 47 =
      keptElements name ++ [itoa pid] := by
  apply List.splitOn_intercalate
  · intro l hl
    rcases List.mem_append.1 hl with hl | hl
    · exact not_mem_of_mem_splitOn 47 name l (List.mem_of_mem_filter hl)
    · rw [List.mem_singleton.1 hl]
      exact itoa_no_slash pid
  · simp

/-! ## Lemmas on the log file -/

theorem foldl_append_line (logFile : Writer) (hw : ∀ c buf, logFile c buf = ⟨buf.length, none⟩)
    (queue : List GoString) :
    ∀ content : GoString,
      queue.foldl (fun content message =>
          content ++ (message ++ [10]).take (logFile content (message ++ [10])).n) content =
        content ++ (queue.map (fun message => message ++ [10])).flatten := by
  induction queue with
  | nil => intro content; simp
  | cons m queue ih =>
    intro content
    have htake : (m ++ [10]).take (logFile content (m ++ [10])).n = m ++ [10] := by
      rw [hw]
      exact List.take_length _
    rw [List.foldl_cons, htake, ih]
    simp [List.append_assoc]

theorem flatten_lines_eq_intercalate (queue : List GoString) :
    (queue.map (fun message => message ++ [10])).flatten = [10].intercalate (queue ++ [[]]) := by
  induction queue with
  | nil => simp [List.intercalate, List.intersperse]
  | cons m queue ih =>
    cases queue with
    | nil => simp [List.intercalate, List.intersperse]
    | cons m2 queue =>
      rw [List.map_cons, List.flatten_cons, ih]
      exact (intercalate_cons_cons [10] m m2 (queue ++ [[]])).symm

/-! ## Lemmas on the relay -/

theorem Relay.run_of_step_none (dst : Writer) (n : Nat) (s : Relay) (h : s.step dst = none) :
    Relay.run dst n s = s := by
  cases n with
  | zero => rfl
  | succ n => simp [Relay.run, h]

theorem Relay.run_succ_of_step (dst : Writer) (n : Nat) (s s1 : Relay)
    (h : s.step dst = some s1) : Relay.run dst (n + 1) s = Relay.run dst n s1 := by
  simp [Relay.run, h]

theorem Relay.run_add (dst : Writer) (a : Nat) : ∀ (b : Nat) (s : Relay),
    Relay.run dst (a + b) s = Relay.run dst b (Relay.run dst a s) := by
  induction a with
  | zero => intro b s; simp [Relay.run]
  | succ a ih =>
    intro b s
    cases hs : s.step dst with
    | none =>
      rw [Relay.run_of_step_none dst _ s hs, Relay.run_of_step_none dst _ s hs,
        Relay.run_of_step_none dst _ s hs]
    | some s1 =>
      rw [show a + 1 + b = (a + b) + 1 by omega, Relay.run_succ_of_step dst _ s s1 hs,
        Relay.run_succ_of_step dst _ s s1 hs, ih]

/-- One step keeps, whatever the destination does: what was passed to `Write`,
then what is held, is what was read; and what was read, then what is still
to come, is the whole input. -/
theorem Relay.step_invariant (dst : Writer) (total : GoString) (s s1 : Relay)
    (h : s.step dst = some s1)
    (h1 : s.handed ++ s.pending = s.read) (h2 : s.read ++ chunks s.src = total) :
    s1.handed ++ s1.pending = s1.read ∧ s1.read ++ chunks s1.src = total := by
  obtain ⟨pc, src, read, handed, written⟩ := s
  cases pc with
  | sleeping =>
    simp only [Relay.step, Option.some.injEq] at h
    subst h
    simpa [Relay.pending] using And.intro h1 h2
  | writing buf er =>
    simp only [Relay.step, Option.some.injEq] at h
    subst h
    simp only [Relay.pending] at h1
    refine ⟨?_, h2⟩
    by_cases hc : ((dst written buf).err.isSome || (dst written buf).n != buf.length
        || er.isSome) = true
    · simpa [Relay.pending, hc] using h1
    · simpa [Relay.pending, hc] using h1
  | reading =>
    cases src with
    | nil => simp [Relay.step] at h
    | cons r rest =>
      simp only [Relay.step, Option.some.injEq] at h
      subst h
      simp only [Relay.pending, List.append_nil] at h1
      subst h1
      simp only [chunks, List.map_cons, List.flatten_cons] at h2
      refine ⟨?_, by simpa [chunks, List.append_assoc] using h2⟩
      by_cases hd : r.data.length > 0
      · simp [Relay.pending, hd]
      · have : r.data = [] := by
          cases hr : r.data with
          | nil => rfl
          | cons _ _ => rw [hr] at hd; simp at hd
        cases r.err <;> simp [Relay.pending, this]

theorem Relay.run_invariant (dst : Writer) (total : GoString) (n : Nat) : ∀ s : Relay,
    s.handed ++ s.pending = s.read → s.read ++ chunks s.src = total →
    (Relay.run dst n s).handed ++ (Relay.run dst n s).pending = (Relay.run dst n s).read ∧
      (Relay.run dst n s).read ++ chunks (Relay.run dst n s).src = total := by
  induction n with
  | zero => intro s h1 h2; exact ⟨h1, h2⟩
  | succ n ih =>
    intro s h1 h2
    cases hs : s.step dst with
    | none => rw [Relay.run_of_step_none dst _ s hs]; exact ⟨h1, h2⟩
    | some s1 =>
      rw [Relay.run_succ_of_step dst _ s s1 hs]
      obtain ⟨h3, h4⟩ := Relay.step_invariant dst total s s1 hs h1 h2
      exact ih s1 h3 h4

/-- To a destination that takes every write in full, what reached it is what was
passed to `Write`. -/
theorem Relay.run_written (dst : Writer) (hdst : ∀ c buf, dst c buf = ⟨buf.length, none⟩)
    (n : Nat) : ∀ s : Relay, s.written = s.handed →
    (Relay.run dst n s).written = (Relay.run dst n s).handed := by
  induction n with
  | zero => intro s h; exact h
  | succ n ih =>
    intro s h
    cases hs : s.step dst with
    | none => rw [Relay.run_of_step_none dst _ s hs]; exact h
    | some s1 =>
      rw [Relay.run_succ_of_step dst _ s s1 hs]
      apply ih
      obtain ⟨pc, src, read, handed, written⟩ := s
      simp only at h
      subst h
      cases pc with
      | sleeping =>
        simp only [Relay.step, Option.some.injEq] at hs
        subst hs; rfl
      | writing buf er =>
        simp only [Relay.step, hdst, Option.some.injEq] at hs
        subst hs; simp
      | reading =>
        cases src with
        | nil => simp [Relay.step] at hs
        | cons r rest =>
          simp only [Relay.step, Option.some.injEq] at hs
          subst hs; rfl

/-- From any state the relay gets back to `src.Read`, with everything it read
passed to `Write`, in at most two steps. -/
theorem Relay.reach_reading (dst : Writer) (s : Relay) (h1 : s.handed ++ s.pending = s.read) :
    ∃ k, (Relay.run dst k s).pc = .reading ∧ (Relay.run dst k s).src = s.src ∧
      (Relay.run dst k s).read = s.read ∧ (Relay.run dst k s).handed = s.read := by
  obtain ⟨pc, src, read, handed, written⟩ := s
  cases pc with
  | reading =>
    refine ⟨0, ?_⟩
    simp only [Relay.pending, List.append_nil] at h1
    simp [Relay.run, h1]
  | sleeping =>
    refine ⟨1, ?_⟩
    simp only [Relay.pending, List.append_nil] at h1
    simp [Relay.run, Relay.step, h1]
  | writing buf er =>
    simp only [Relay.pending] at h1
    by_cases hc : ((dst written buf).err.isSome || (dst written buf).n != buf.length
        || er.isSome) = true
    · exact ⟨2, by simp [Relay.run, Relay.step, hc, h1]⟩
    · exact ⟨1, by simp [Relay.run, Relay.step, hc, h1]⟩

/-- Whatever the reads return and whatever the destination does, the relay takes
every read result and ends up waiting in `src.Read` with every byte it read
passed to `Write`. -/
theorem Relay.reach_all (dst : Writer) (reads : List ReadResult) : ∀ s : Relay,
    s.src = reads → s.handed ++ s.pending = s.read →
    ∃ k, (Relay.run dst k s).pc = .reading ∧ (Relay.run dst k s).src = [] ∧
      (Relay.run dst k s).read = s.read ++ chunks reads ∧
      (Relay.run dst k s).handed = s.read ++ chunks reads := by
  induction reads with
  | nil =>
    intro s hsrc h1
    obtain ⟨k, hk1, hk2, hk3, hk4⟩ := Relay.reach_reading dst s h1
    exact ⟨k, hk1, by rw [hk2, hsrc], by simp [hk3, chunks], by simp [hk4, chunks]⟩
  | cons r rest ih =>
    intro s hsrc h1
    obtain ⟨k, hk1, hk2, hk3, hk4⟩ := Relay.reach_reading dst s h1
    generalize hs1 : Relay.run dst k s = s1 at hk1 hk2 hk3 hk4
    obtain ⟨pc1, src1, read1, handed1, written1⟩ := s1
    simp only at hk1 hk2 hk3 hk4
    subst hk1 hk3 hk4
    rw [hsrc] at hk2
    subst hk2
    have hstep : Relay.step dst ⟨.reading, r :: rest, s.read, s.read, written1⟩ =
        some ⟨if r.data.length > 0 then .writing r.data r.err
              else if r.err.isSome then .sleeping else .reading,
          rest, s.read ++ r.data, s.read, written1⟩ := rfl
    have hinv := (Relay.step_invariant dst (s.read ++ chunks (r :: rest)) _ _ hstep
      (by simp [Relay.pending]) rfl).1
    obtain ⟨j, hj1, hj2, hj3, hj4⟩ := ih _ rfl hinv
    refine ⟨k + (1 + j), ?_⟩
    rw [Relay.run_add, hs1, Relay.run_add]
    simp only [Relay.run, hstep]
    refine ⟨hj1, hj2, ?_, ?_⟩
    · rw [hj3]; simp [chunks, List.append_assoc]
    · rw [hj4]; simp [chunks, List.append_assoc]

/-! # The claims -/

/-! ## C1: the exit code is the first field of the first read -/

/-- C1, as stated, fails: the payload `123456789\n` has the base-10 integer
123456789 as its first field, and with every channel open `doWork` returns
12345678, because one `Read` into the 8-byte buffer decides. -/
theorem C1_long_token_truncated :
    fields (ascii "123456789\n") = [ascii "123456789"] ∧
    isDecimal (ascii "123456789") = true ∧
    decimalValue (ascii "123456789") = 123456789 ∧
    (doWork (demoOS (ascii "123456789\n") [])).1 = .returned 12345678 := by
  refine ⟨by decide, by decide, by decide, ?_⟩
  rw [doWork_of_success _ (fun _ _ => rfl) (fun _ _ _ => rfl)]
  decide

/-- C1, amended: with every channel open, when the external writer puts a
payload into `mox_exit` in one write (after any number of polls that found
the pipe empty, and whatever it writes later) and the first
white-space-delimited field of the first 8 bytes of the payload is a base-10
signed integer, `doWork` returns the value of that integer. -/
theorem C1_exit_code_of_first_read (os : OS) (idle : Nat) (payload : GoString)
    (later : List GoString) (tok : GoString) (rest : List GoString)
    (hmk : ∀ p m, os.mkfifo p m = none) (hop : ∀ p f m, os.openFile p f m = none)
    (hreads : os.exitReads = fifoReads exitBufLen (List.replicate idle [] ++ payload :: later) [])
    (hfield : fields (payload.take exitBufLen) = tok :: rest)
    (hdec : isDecimal tok = true) :
    (doWork os).1 = .returned (decimalValue tok) := by
  have hne : payload ≠ [] := by
    intro h
    subst h
    simp [fields, fieldsASCII] at hfield
  have htok : tok.length < 19 := by
    have h1 := (fields_sublist (payload.take exitBufLen) tok (by simp [hfield])).length_le
    have h2 : (payload.take exitBufLen).length ≤ 8 := by simp [exitBufLen]
    omega
  have hpos : (payload.take exitBufLen).length > 0 := by
    cases payload with
    | nil => exact absurd rfl hne
    | cons b t => simp [exitBufLen]
  have hle : ¬ (payload.take exitBufLen).length > exitBufLen := by simp
  rw [doWork_of_success os hmk hop, hreads, fifoReads_idle,
    exitLoop_skip_empty _ (by intro e he; rw [List.eq_of_mem_replicate he]; rfl)]
  simp only [fifoReads, List.nil_append, pipeRead, hne, if_false, exitLoop, hle, hpos, if_true,
    decodeToken, hfield, atoi_of_decimal tok hdec htok]

/-- C1, amended, at the payloads `0\n`, `5 reason-text\n` and `137 killed\n`,
each written before the third poll and followed by a later `9\n`. -/
theorem C1_exit_code_of_first_read_witness :
    (doWork (demoOS (ascii "0\n") (ascii "9\n"))).1 = .returned 0 ∧
    (doWork (demoOS (ascii "5 reason-text\n") (ascii "9\n"))).1 = .returned 5 ∧
    (doWork (demoOS (ascii "137 killed\n") (ascii "9\n"))).1 = .returned 137 :=
  ⟨C1_exit_code_of_first_read (demoOS (ascii "0\n") (ascii "9\n")) 2
      (ascii "0\n") [ascii "9\n"] (ascii "0") []
      (fun _ _ => rfl) (fun _ _ _ => rfl) rfl (by decide) (by decide),
   C1_exit_code_of_first_read (demoOS (ascii "5 reason-text\n") (ascii "9\n")) 2
      (ascii "5 reason-text\n") [ascii "9\n"] (ascii "5") [ascii "reason"]
      (fun _ _ => rfl) (fun _ _ _ => rfl) rfl (by decide) (by decide),
   C1_exit_code_of_first_read (demoOS (ascii "137 killed\n") (ascii "9\n")) 2
      (ascii "137 killed\n") [ascii "9\n"] (ascii "137") [ascii "kill"]
      (fun _ _ => rfl) (fun _ _ _ => rfl) rfl (by decide) (by decide)⟩

/-! ## C2: a malformed token -/

/-- C2, as stated, fails: the read `abc\n` has the first field `abc`, which is not
a base-10 integer, and the listener does not stay waiting: it ends the loop
at that read with exit code 0 and never sees the `7\n` that follows. -/
theorem C2_malformed_token_ends_loop :
    fields (ascii "abc\n") = [ascii "abc"] ∧
    isDecimal (ascii "abc") = false ∧
    (exitLoop [⟨ascii "abc\n", none⟩, ⟨ascii "7\n", none⟩] []).1 ≠ .waiting ∧
    (exitLoop [⟨ascii "abc\n", none⟩, ⟨ascii "7\n", none⟩] []).1 = .returned 0 := by
  decide

/-- C2, amended: for every read of 1 to 8 bytes whose first
white-space-delimited field is not a base-10 signed integer, the listener
(after any reads of zero bytes, whatever follows) ends the loop at that read
and the exit code is 0: the parse error is dropped, there is no retry. -/
theorem C2_malformed_token_exits_zero (pre post : List ReadResult) (log : List GoString)
    (r : ReadResult) (tok : GoString) (rest : List GoString)
    (hpre : ∀ e ∈ pre, e.data.length = 0)
    (hbytes : ∀ b ∈ r.data, b < 256) (hlen : r.data.length ≤ exitBufLen)
    (hfield : fields r.data = tok :: rest) (hbad : isDecimal tok = false) :
    (exitLoop (pre ++ r :: post) log).1 = .returned 0 := by
  have hsub := fields_sublist r.data tok (by simp [hfield])
  have htok : tok.length < 19 := by
    have := hsub.length_le
    simp only [exitBufLen] at hlen
    omega
  have hpos : r.data.length > 0 := by
    cases hd : r.data with
    | nil => rw [hd] at hfield; simp [fields, fieldsASCII] at hfield
    | cons b t => simp
  have h0 := atoi_of_not_decimal tok (fun b hb => hbytes b (hsub.subset hb)) hbad htok
  rw [exitLoop_skip_empty pre hpre]
  simp only [exitLoop, Nat.not_lt.2 hlen, if_false, hpos, if_true, decodeToken, hfield, h0]

/-- C2, amended, at the read `abc\n` after one empty read. -/
theorem C2_malformed_token_exits_zero_witness :
    (exitLoop ([emptyRead] ++ ⟨ascii "abc\n", none⟩ :: [⟨ascii "7\n", none⟩]) []).1
      = .returned 0 :=
  C2_malformed_token_exits_zero [emptyRead] [⟨ascii "7\n", none⟩] [] ⟨ascii "abc\n", none⟩
    (ascii "abc") [] (by decide) (by decide) (by decide) (by decide) (by decide)

/-! ## C3: a read of white space only -/

/-- C3, the code at the failing input: on the one-byte read `\n` the fields are
empty, taking element `[0]` panics, and `doWork` (every channel open) ends
in that panic. -/
theorem C3_whitespace_read_panics :
    fields (ascii "\n") = [] ∧
    decodeToken (ascii "\n") = .error "runtime error: index out of range [0] with length 0" ∧
    (doWork (demoOS (ascii "\n") (ascii "7\n"))).1 =
      .panicked "runtime error: index out of range [0] with length 0" := by
  refine ⟨by decide, rfl, ?_⟩
  rw [doWork_of_success _ (fun _ _ => rfl) (fun _ _ _ => rfl)]
  decide

/-! ## C4: a channel that cannot be opened -/

/-- C4, the code at the failing inputs: when `Mkfifo` fails for `stdout`, for
`stderr` or for `mox_exit` (every other call succeeds and the writer sends
`0\n`), `openFifo` logs the error and returns nil handles, and `doWork` then
panics on the nil handle (`defer wOut.Close()`, `defer wErr.Close()`,
`r.Read(b)`) instead of running on to an exit code. -/
theorem C4_failed_channel_panics :
    (doWork (brokenOS (ascii "/home/u/moxecutable/moxy/4242/stdout"))).1 = .panicked nilDeref ∧
    (doWork (brokenOS (ascii "/home/u/moxecutable/moxy/4242/stdout"))).2.log =
      [ascii "Writing context file", ascii "file exists"] ∧
    (doWork (brokenOS (ascii "/home/u/moxecutable/moxy/4242/stdout"))).2.relays = [] ∧
    (doWork (brokenOS (ascii "/home/u/moxecutable/moxy/4242/stderr"))).1 = .panicked nilDeref ∧
    (doWork (brokenOS (ascii "/home/u/moxecutable/moxy/4242/mox_exit"))).1 = .panicked nilDeref ∧
    (doWork (brokenOS [])).1 = .returned 0 := by
  decide

/-! ## C5: `openFifo` -/

/-- C5: `openFifo` returns two present handles exactly when `Mkfifo`, the
non-blocking read-only open and the non-blocking write-only open all
succeed. When `Mkfifo` fails, it is the only call made; when the read-only
open fails, the write-only open is not made; in each of the three failures
exactly the text of that error is added to the log and both handles are nil.
On success nothing is logged. -/
theorem C5_openFifo_spec (os : OS) (mox : Mox) (fileName : GoString) :
    ((openFifo os mox fileName).1.1.isSome ∧ (openFifo os mox fileName).1.2.isSome ↔
      os.mkfifo (join [mox.dir, fileName]) 0o755 = none ∧
      os.openFile (join [mox.dir, fileName]) (O_RDONLY ||| O_NONBLOCK) 0 = none ∧
      os.openFile (join [mox.dir, fileName]) (O_WRONLY ||| O_NONBLOCK) 0 = none) ∧
    (∀ e, os.mkfifo (join [mox.dir, fileName]) 0o755 = some e →
      openFifo os mox fileName = ((none, none),
        { mox with
          log := mox.log ++ [e]
          calls := mox.calls ++ [Syscall.mkfifo (join [mox.dir, fileName]) 0o755] })) ∧
    (∀ e, os.mkfifo (join [mox.dir, fileName]) 0o755 = none →
      os.openFile (join [mox.dir, fileName]) (O_RDONLY ||| O_NONBLOCK) 0 = some e →
      openFifo os mox fileName = ((none, none),
        { mox with
          log := mox.log ++ [e]
          calls := mox.calls ++ [Syscall.mkfifo (join [mox.dir, fileName]) 0o755,
            Syscall.openFile (join [mox.dir, fileName]) (O_RDONLY ||| O_NONBLOCK) 0] })) ∧
    (∀ e, os.mkfifo (join [mox.dir, fileName]) 0o755 = none →
      os.openFile (join [mox.dir, fileName]) (O_RDONLY ||| O_NONBLOCK) 0 = none →
      os.openFile (join [mox.dir, fileName]) (O_WRONLY ||| O_NONBLOCK) 0 = some e →
      openFifo os mox fileName = ((none, none),
        { mox with
          log := mox.log ++ [e]
          calls := mox.calls ++ [Syscall.mkfifo (join [mox.dir, fileName]) 0o755,
            Syscall.openFile (join [mox.dir, fileName]) (O_RDONLY ||| O_NONBLOCK) 0,
            Syscall.openFile (join [mox.dir, fileName]) (O_WRONLY ||| O_NONBLOCK) 0] })) ∧
    (os.mkfifo (join [mox.dir, fileName]) 0o755 = none →
      os.openFile (join [mox.dir, fileName]) (O_RDONLY ||| O_NONBLOCK) 0 = none →
      os.openFile (join [mox.dir, fileName]) (O_WRONLY ||| O_NONBLOCK) 0 = none →
      openFifo os mox fileName =
        ((some ⟨join [mox.dir, fileName], O_RDONLY ||| O_NONBLOCK⟩,
          some ⟨join [mox.dir, fileName], O_WRONLY ||| O_NONBLOCK⟩),
        { mox with
          calls := mox.calls ++ [Syscall.mkfifo (join [mox.dir, fileName]) 0o755,
            Syscall.openFile (join [mox.dir, fileName]) (O_RDONLY ||| O_NONBLOCK) 0,
            Syscall.openFile (join [mox.dir, fileName]) (O_WRONLY ||| O_NONBLOCK) 0] })) := by
  refine ⟨?_, ?_, ?_, ?_, ?_⟩
  · cases h1 : os.mkfifo (join [mox.dir, fileName]) 0o755 with
    | some e => simp [openFifo, h1]
    | none =>
      cases h2 : os.openFile (join [mox.dir, fileName]) (O_RDONLY ||| O_NONBLOCK) 0 with
      | some e => simp [openFifo, h1, h2]
      | none =>
        cases h3 : os.openFile (join [mox.dir, fileName]) (O_WRONLY ||| O_NONBLOCK) 0 with
        | some e => simp [openFifo, h1, h2, h3]
        | none => simp [openFifo, h1, h2, h3]
  · intro e h1
    simp [openFifo, h1, Mox.send]
  · intro e h1 h2
    simp [openFifo, h1, h2, Mox.send]
  · intro e h1 h2 h3
    simp [openFifo, h1, h2, h3, Mox.send]
  · intro h1 h2 h3
    simp [openFifo, h1, h2, h3]

/-- C5 at a read-only open that fails with `permission denied` after a `Mkfifo`
that succeeded: one log line, two calls, nil handles. -/
theorem C5_openFifo_spec_witness :
    openFifo { demoOS [] [] with
        openFile := fun _ f _ =>
          if f = O_RDONLY ||| O_NONBLOCK then some (ascii "permission denied") else none }
      demoMox (ascii "stdout") =
    ((none, none),
      { demoMox with
        log := [ascii "permission denied"]
        calls := [Syscall.mkfifo (ascii "/d/stdout") 0o755,
          Syscall.openFile (ascii "/d/stdout") (O_RDONLY ||| O_NONBLOCK) 0] }) :=
  (C5_openFifo_spec { demoOS [] [] with
        openFile := fun _ f _ =>
          if f = O_RDONLY ||| O_NONBLOCK then some (ascii "permission denied") else none }
      demoMox (ascii "stdout")).2.2.1 (ascii "permission denied") rfl rfl

/-! ## C6: when two instances share a directory -/

/-- C6, as stated, fails: started as `moxy` and as `./moxy`, two instances with
process id 42 under the home `/home/u` get the same instance directory. -/
theorem C6_dot_slash_collides :
    (ascii "moxy", (42 : Int)) ≠ (ascii "./moxy", (42 : Int)) ∧
    instanceDir (ascii "/home/u") (ascii "moxy") 42 =
      instanceDir (ascii "/home/u") (ascii "./moxy") 42 ∧
    instanceDir (ascii "/home/u") (ascii "./moxy") 42 = ascii "/home/u/moxecutable/moxy/42" := by
  decide

/-- C6, amended: for a fixed home directory, two instances with the same
instance directory have the same process id, whatever their program names;
and two instances whose program names have no `..` element get the same
instance directory exactly when their process ids are equal and their
program names have the same elements once the empty and the `.` elements
are dropped. -/
theorem C6_same_dir_iff (home name1 name2 : GoString) (pid1 pid2 : Int) :
    (instanceDir home name1 pid1 = instanceDir home name2 pid2 → pid1 = pid2) ∧
    ([46, 46] ∉ name1.splitOn 47 → [46, 46] ∉ name2.splitOn 47 →
      (instanceDir home name1 pid1 = instanceDir home name2 pid2 ↔
        pid1 = pid2 ∧ keptElements name1 = keptElements name2)) := by
  refine ⟨?_, ?_⟩
  · intro h
    have h1 := instanceDir_last home name1 pid1
    rw [h, instanceDir_last home name2 pid2] at h1
    exact (itoa_injective _ _ (Option.some.inj h1)).symm
  · intro h1 h2
    rw [instanceDir_layout home name1 pid1 h1, instanceDir_layout home name2 pid2 h2]
    constructor
    · intro h
      have hx := List.append_cancel_left h
      have hs := congrArg (List.splitOn 47) hx
      rw [splitOn_kept_pid, splitOn_kept_pid] at hs
      obtain ⟨hk, hp⟩ := List.append_inj' hs rfl
      exact ⟨itoa_injective _ _ (by simpa using hp), hk⟩
    · rintro ⟨hp, hk⟩
      rw [hp, hk]

/-- C6, amended, at the names `bin/moxy` and `tools/moxy` with process id 7
under `/home/u`: the names have no `..` and different elements, so the
directories differ. -/
theorem C6_same_dir_iff_witness :
    instanceDir (ascii "/home/u") (ascii "bin/moxy") 7 ≠
      instanceDir (ascii "/home/u") (ascii "tools/moxy") 7 :=
  fun h => absurd
    (((C6_same_dir_iff (ascii "/home/u") (ascii "bin/moxy") (ascii "tools/moxy") 7 7).2
      (by decide) (by decide)).1 h).2 (by decide)

/-! ## C7: where the instance directory lies -/

/-- C7, as stated, fails: for the program name `../x` the instance directory of
process 7 under `/home/u` is `/home/u/x/7`, which is not below
`/home/u/moxecutable` and has no element `..` of the name. -/
theorem C7_dotdot_escapes :
    instanceDir (ascii "/home/u") (ascii "../x") 7 = ascii "/home/u/x/7" ∧
    ¬ (ascii "/home/u/moxecutable" <+: instanceDir (ascii "/home/u") (ascii "../x") 7) := by
  decide

/-- C7, amended: for every home directory, program name and process id, the last
element of the instance directory is the decimal process id; and when the
program name has no `..` element, the instance directory is
`filepath.Join(home, "moxecutable")`, a separator, then the elements of the
program name that are neither empty nor `.`, then the decimal process id,
joined by separators, so it lies strictly below
`Join(home, "moxecutable")`. -/
theorem C7_instance_dir_layout (home name : GoString) (pid : Int) :
    ((instanceDir home name pid).splitOn 47).getLast? = some (itoa pid) ∧
    ([46, 46] ∉ name.splitOn 47 →
      instanceDir home name pid =
        join [home, ascii "moxecutable"] ++ [47] ++
          [47].intercalate (keptElements name ++ [itoa pid]) ∧
      join [home, ascii "moxecutable"] ++ [47] <+: instanceDir home name pid) := by
  refine ⟨instanceDir_last home name pid, fun hname => ?_⟩
  have h := instanceDir_layout home name pid hname
  refine ⟨h, ?_⟩
  rw [h]
  exact List.prefix_append _ _

/-- C7, amended, at the home `/home/u`, the program name `./bin/moxy` and the
process id 4242. -/
theorem C7_instance_dir_layout_witness :
    instanceDir (ascii "/home/u") (ascii "./bin/moxy") 4242 =
      ascii "/home/u/moxecutable/bin/moxy/4242" :=
  ((C7_instance_dir_layout (ascii "/home/u") (ascii "./bin/moxy") 4242).2 (by decide)).1.trans
    (by decide)

/-! ## C8: the log file -/

/-- C8, as stated, fails: the one message `a\nb` is written as the two lines `a`
and `b`, so there are more lines than messages and line 1 is not message 1. -/
theorem C8_newline_in_message :
    handleLogs none takesAll [ascii "a\nb"] = .ok (ascii "a\nb\n") ∧
    fileLines (ascii "a\nb\n") = [ascii "a", ascii "b"] ∧
    (fileLines (ascii "a\nb\n")).length ≠ [ascii "a\nb"].length := by
  refine ⟨rfl, by decide, by decide⟩

/-- C8, amended: when `log.txt` is created and takes every write in full, for
every finite sequence of messages received before the queue is closed,
`handleLogs` writes every message, in the order received, each followed by
one line feed and nothing else; and when no message contains a line feed,
the lines of the file are exactly the messages (as many lines as messages,
line i is message i). -/
theorem C8_log_lines (logFile : Writer) (queue : List GoString)
    (hw : ∀ c buf, logFile c buf = ⟨buf.length, none⟩) :
    handleLogs none logFile queue =
      .ok (queue.map (fun message => message ++ [10])).flatten ∧
    ((∀ m ∈ queue, 10 ∉ m) →
      fileLines (queue.map (fun message => message ++ [10])).flatten = queue) := by
  refine ⟨?_, fun hline => ?_⟩
  · simp [handleLogs, foldl_append_line logFile hw]
  · have hsplit : ((queue.map (fun message => message ++ [10])).flatten).splitOn 10 =
        queue ++ [[]] := by
      rw [flatten_lines_eq_intercalate]
      apply List.splitOn_intercalate
      · intro l hl
        rcases List.mem_append.1 hl with hl | hl
        · exact hline l hl
        · simp [List.mem_singleton.1 hl]
      · simp
    simp [fileLines, hsplit]

/-- C8, amended, at the three messages the program sends on a run without
errors. -/
theorem C8_log_lines_witness :
    handleLogs none takesAll [ascii "Writing context file", ascii "Waiting for exit",
        ascii "Got strVal: 5, returning exit code 5"] =
      .ok (ascii
        "Writing context file\nWaiting for exit\nGot strVal: 5, returning exit code 5\n") ∧
    fileLines (ascii
        "Writing context file\nWaiting for exit\nGot strVal: 5, returning exit code 5\n") =
      [ascii "Writing context file", ascii "Waiting for exit",
        ascii "Got strVal: 5, returning exit code 5"] :=
  ⟨(C8_log_lines takesAll [ascii "Writing context file", ascii "Waiting for exit",
      ascii "Got strVal: 5, returning exit code 5"] (fun _ _ => rfl)).1.trans rfl,
   (C8_log_lines takesAll [ascii "Writing context file", ascii "Waiting for exit",
      ascii "Got strVal: 5, returning exit code 5"] (fun _ _ => rfl)).2 (by decide)⟩

/-! ## C9: the relay -/

/-- C9, as stated, fails: the source delivers the chunks `ab`, `cd`, `ef` and the
destination fails the write of `cd`; `io.Copy` returns, its result is
dropped, and the relay goes on. In the end every chunk has been read
(`abcdef`) and the destination holds `abef`: not the concatenation of the
chunks and not a prefix of the bytes read. -/
theorem C9_failed_write_loses_chunk :
    (Relay.run (failsOn (ascii "cd")) 10 (forwardingLoop
        [⟨ascii "ab", none⟩, ⟨ascii "cd", none⟩, ⟨ascii "ef", none⟩])).src = [] ∧
    (Relay.run (failsOn (ascii "cd")) 10 (forwardingLoop
        [⟨ascii "ab", none⟩, ⟨ascii "cd", none⟩, ⟨ascii "ef", none⟩])).read = ascii "abcdef" ∧
    (Relay.run (failsOn (ascii "cd")) 10 (forwardingLoop
        [⟨ascii "ab", none⟩, ⟨ascii "cd", none⟩, ⟨ascii "ef", none⟩])).written = ascii "abef" ∧
    chunks [⟨ascii "ab", none⟩, ⟨ascii "cd", none⟩, ⟨ascii "ef", none⟩] = ascii "abcdef" ∧
    ¬ ((Relay.run (failsOn (ascii "cd")) 10 (forwardingLoop
        [⟨ascii "ab", none⟩, ⟨ascii "cd", none⟩, ⟨ascii "ef", none⟩])).written <+:
      (Relay.run (failsOn (ascii "cd")) 10 (forwardingLoop
        [⟨ascii "ab", none⟩, ⟨ascii "cd", none⟩, ⟨ascii "ef", none⟩])).read) := by
  decide

/-- C9, amended: for every sequence of read results of the source (chunks of
bytes, empty reads, reads with an error, `EOF` included) and a destination
that takes every write in full, the bytes that reached the destination are
at every moment a prefix of the bytes read, which are a prefix of the
concatenation of the chunks; after finitely many steps the relay has taken
every read result and the destination holds exactly the concatenation of
the chunks, and the relay stays there waiting in the next `Read`; a relay
has no step left only when it waits in `Read` for a result not yet
supplied, so no read ends it. -/
theorem C9_relay_forwards (dst : Writer) (reads : List ReadResult)
    (hdst : ∀ c buf, dst c buf = ⟨buf.length, none⟩) :
    (∀ n, (Relay.run dst n (forwardingLoop reads)).written <+:
        (Relay.run dst n (forwardingLoop reads)).read ∧
      (Relay.run dst n (forwardingLoop reads)).read <+: chunks reads) ∧
    (∃ n, ∀ m, n ≤ m →
      (Relay.run dst m (forwardingLoop reads)).pc = .reading ∧
      (Relay.run dst m (forwardingLoop reads)).src = [] ∧
      (Relay.run dst m (forwardingLoop reads)).read = chunks reads ∧
      (Relay.run dst m (forwardingLoop reads)).written = chunks reads) ∧
    (∀ s : Relay, s.step dst = none ↔ s.pc = .reading ∧ s.src = []) := by
  have hstuck : ∀ s : Relay, s.step dst = none ↔ s.pc = .reading ∧ s.src = [] := by
    intro s
    obtain ⟨pc, src, read, handed, written⟩ := s
    cases pc with
    | reading => cases src <;> simp [Relay.step]
    | sleeping => simp [Relay.step]
    | writing buf er => simp [Relay.step]
  have hwritten : ∀ n, (Relay.run dst n (forwardingLoop reads)).written =
      (Relay.run dst n (forwardingLoop reads)).handed :=
    fun n => Relay.run_written dst hdst n (forwardingLoop reads) rfl
  refine ⟨?_, ?_, hstuck⟩
  · intro n
    obtain ⟨h1, h2⟩ := Relay.run_invariant dst (chunks reads) n (forwardingLoop reads) rfl
      (by simp [forwardingLoop])
    rw [hwritten n]
    exact ⟨⟨_, h1⟩, ⟨_, h2⟩⟩
  · obtain ⟨n, hn1, hn2, hn3, hn4⟩ := Relay.reach_all dst reads (forwardingLoop reads) rfl rfl
    simp only [forwardingLoop, List.nil_append] at hn3 hn4
    refine ⟨n, fun m hm => ?_⟩
    have hw := hwritten m
    obtain ⟨d, rfl⟩ := Nat.exists_eq_add_of_le hm
    rw [Relay.run_add, Relay.run_of_step_none dst d _ ((hstuck _).2 ⟨hn1, hn2⟩)] at hw ⊢
    exact ⟨hn1, hn2, hn3, hw.trans hn4⟩

/-- C9, amended, at a source that delivers `ab`, then fails with `EAGAIN` on an
empty pipe, then delivers `cd` together with `EOF`, then `e`, and a
destination that takes every write: after 3 steps what is written is a
prefix of what is read, and after 10 steps the relay waits in `Read` with
`abcde` read and written. -/
theorem C9_relay_forwards_witness :
    ((Relay.run takesAll 3 (forwardingLoop [⟨ascii "ab", none⟩, emptyRead,
        ⟨ascii "cd", some (ascii "EOF")⟩, ⟨ascii "e", none⟩])).written <+:
      (Relay.run takesAll 3 (forwardingLoop [⟨ascii "ab", none⟩, emptyRead,
        ⟨ascii "cd", some (ascii "EOF")⟩, ⟨ascii "e", none⟩])).read ∧
     (Relay.run takesAll 3 (forwardingLoop [⟨ascii "ab", none⟩, emptyRead,
        ⟨ascii "cd", some (ascii "EOF")⟩, ⟨ascii "e", none⟩])).read <+:
      chunks [⟨ascii "ab", none⟩, emptyRead, ⟨ascii "cd", some (ascii "EOF")⟩,
        ⟨ascii "e", none⟩]) ∧
    Relay.run takesAll 10 (forwardingLoop [⟨ascii "ab", none⟩, emptyRead,
        ⟨ascii "cd", some (ascii "EOF")⟩, ⟨ascii "e", none⟩]) =
      ⟨.reading, [], ascii "abcde", ascii "abcde", ascii "abcde"⟩ :=
  ⟨(C9_relay_forwards takesAll [⟨ascii "ab", none⟩, emptyRead,
      ⟨ascii "cd", some (ascii "EOF")⟩, ⟨ascii "e", none⟩] (fun _ _ => rfl)).1 3, by decide⟩

/-! ## C10: the first read with data -/

/-- C10, the code at the failing input: after two reads of zero bytes (one with
an error, one without) the listener is still waiting, as the claim says; at
the first read with data, the one byte `\n`, it does not finish with an
exit code: taking element `[0]` of the empty fields panics, nothing is
logged, and `doWork` (every channel open) ends in that panic, although a
later `7\n` was on its way. This is the defect of C3. -/
theorem C10_whitespace_read_gives_no_exit_code :
    exitLoop [emptyRead, ⟨[], none⟩] [] = (.waiting, []) ∧
    exitLoop [emptyRead, ⟨[], none⟩, ⟨ascii "\n", none⟩, ⟨ascii "7\n", none⟩] [] =
      (.panicked "runtime error: index out of range [0] with length 0", []) ∧
    (doWork (demoOS (ascii " \n") (ascii "7\n"))).1 =
      .panicked "runtime error: index out of range [0] with length 0" := by
  refine ⟨by decide, by decide, ?_⟩
  rw [doWork_of_success _ (fun _ _ => rfl) (fun _ _ _ => rfl)]
  decide

end Moxy
